import Mathlib

/-!
Verification of the Timer application core (src/js/timer.js): the Project
time-accounting state machine, the Projects ordered collection with
add/remove notifications, the pipe-and-ampersand text codec, and the
DOM-storage synchronization monitor.

Modelling conventions for the JavaScript source:
* JS numbers that can be NaN are modelled as `Option Int`; `none` is NaN.
  All reachable numeric values in the program are integers (epoch
  milliseconds from `Date.getTime` and `parseInt` results).
* The JS `undefined` value flowing through string-valued slots is modelled
  as `none : Option String`.
* Single-slot callback fields (`_onChange`, `_onAdd`, `_onRemove`) are
  modelled by a `Bool` recording whether a function is installed (the
  `typeof f == "function"` guard); operations return the list or count of
  callback invocations they perform, with their payloads, alongside the
  updated object. Callbacks are observers: in the application they update
  the DOM and do not re-enter the model.
* The leading underscore of JS attribute names is dropped.
-/

namespace Timer

/- ===== JS string primitives ===== -/

/-- Model of `String.prototype.split` with a one-character separator.
JS semantics: splitting the empty string yields one empty-string element,
and a trailing separator yields a trailing empty-string element. -/
def splitChar (sep : Char) : List Char → List (List Char)
  | [] => [[]]
  | c :: cs =>
    if c = sep then [] :: splitChar sep cs
    else
      match splitChar sep cs with
      | r :: rs => (c :: r) :: rs
      | [] => [[]]

/-- Model of `Array.prototype.join` with a one-character separator. -/
def joinChar (sep : Char) : List (List Char) → List Char
  | [] => []
  | [x] => x
  | x :: y :: t => x ++ sep :: joinChar sep (y :: t)

/- ===== Percent-encoding (encodeURIComponent / decodeURIComponent) ===== -/

/-- The characters `encodeURIComponent` leaves unescaped:
ASCII letters, digits, and - _ . ! ~ * ( ) and the apostrophe (code 39). -/
def unreservedChar (c : Char) : Bool :=
  let n := c.toNat
  (65 ≤ n && n ≤ 90) || (97 ≤ n && n ≤ 122) || (48 ≤ n && n ≤ 57) ||
  n == 45 || n == 95 || n == 46 || n == 33 || n == 126 ||
  n == 42 || n == 39 || n == 40 || n == 41

/-- Uppercase hexadecimal digit for a value below 16. -/
def hexDigit (n : Nat) : Char :=
  if n < 10 then Char.ofNat (48 + n) else Char.ofNat (55 + n)

/-- Numeric value of a hexadecimal digit character (either case). -/
def hexVal (c : Char) : Option Nat :=
  let n := c.toNat
  if 48 ≤ n ∧ n ≤ 57 then some (n - 48)
  else if 65 ≤ n ∧ n ≤ 70 then some (n - 55)
  else if 97 ≤ n ∧ n ≤ 102 then some (n - 87)
  else none

/-- UTF-8 byte sequence of a code point, as `encodeURIComponent` emits it. -/
def utf8Bytes (n : Nat) : List Nat :=
  if n < 128 then [n]
  else if n < 2048 then [192 + n / 64, 128 + n % 64]
  else if n < 65536 then [224 + n / 4096, 128 + n / 64 % 64, 128 + n % 64]
  else [240 + n / 262144, 128 + n / 4096 % 64, 128 + n / 64 % 64, 128 + n % 64]

/-- A percent-escape `%XX` for one byte, uppercase hex. -/
def byteHex (b : Nat) : List Char :=
  ['%', hexDigit (b / 16), hexDigit (b % 16)]

/-- Encoding of a single character: unreserved characters pass through,
everything else becomes the percent-escaped UTF-8 bytes of its code point. -/
def encodeChar (c : Char) : List Char :=
  if unreservedChar c then [c] else ((utf8Bytes c.toNat).map byteHex).flatten

/-- Model of `encodeURIComponent` on a character list. -/
def encodeChars (l : List Char) : List Char :=
  (l.map encodeChar).flatten

/-- Model of `encodeURIComponent`. -/
def encodeURIComponent (s : String) : String :=
  ⟨encodeChars s.data⟩

/-- Collects a maximal run of consecutive `%XX` escapes into the byte values
they denote, returning the bytes and the unconsumed remainder. -/
def percentRun (cs : List Char) : List Nat × List Char :=
  match cs with
  | c :: h1 :: h2 :: rest =>
    if c = '%' then
      match hexVal h1, hexVal h2 with
      | some a, some b =>
        let r := percentRun rest
        ((16 * a + b) :: r.1, r.2)
      | _, _ => ([], c :: h1 :: h2 :: rest)
    else ([], c :: h1 :: h2 :: rest)
  | l => ([], l)

/-- Total byte count of the UTF-8 sequence a lead byte opens. -/
def utf8SeqLen (b : Nat) : Nat :=
  if b < 128 then 1 else if b < 224 then 2 else if b < 240 then 3 else 4

/-- Payload bits of a UTF-8 lead byte. -/
def utf8LeadVal (b : Nat) : Nat :=
  if b < 128 then b else if b < 224 then b - 192 else if b < 240 then b - 224 else b - 240

/-- Are all these bytes UTF-8 continuation bytes (form 10xxxxxx)? -/
def utf8ContsOk (conts : List Nat) : Bool :=
  conts.all fun x => 128 ≤ x && x < 192

/-- Smallest code point a UTF-8 sequence of the length opened by lead byte
`b` may encode; shorter encodings of smaller values are overlong and
rejected. -/
def utf8Min (b : Nat) : Nat :=
  if b < 224 then 128 else if b < 240 then 2048 else 65536

/-- Code point assembled from a lead byte and its continuation bytes. -/
def utf8FoldVal (b : Nat) (conts : List Nat) : Nat :=
  conts.foldl (fun a x => a * 64 + (x - 128)) (utf8LeadVal b)

/-- Strict UTF-8 decoding of a byte sequence, as the ECMAScript `Decode`
operation performs it: `none` (a `URIError`) on a truncated sequence, a
continuation byte in lead position, an invalid lead byte, a non-continuation
byte where a continuation is required, an overlong encoding, a surrogate
code point, or a value beyond 0x10FFFF. -/
def utf8DecodeStrict : List Nat → Option (List Char)
  | [] => some []
  | b :: rest =>
    if b < 128 then (utf8DecodeStrict rest).map fun l => Char.ofNat b :: l
    else if b < 194 then none
    else if (rest.take (utf8SeqLen b - 1)).length = utf8SeqLen b - 1 ∧
        utf8ContsOk (rest.take (utf8SeqLen b - 1)) ∧
        utf8Min b ≤ utf8FoldVal b (rest.take (utf8SeqLen b - 1)) ∧
        utf8FoldVal b (rest.take (utf8SeqLen b - 1)) < 1114112 ∧
        ¬(55296 ≤ utf8FoldVal b (rest.take (utf8SeqLen b - 1)) ∧
          utf8FoldVal b (rest.take (utf8SeqLen b - 1)) ≤ 57343) then
      (utf8DecodeStrict (rest.drop (utf8SeqLen b - 1))).map
        fun l => Char.ofNat (utf8FoldVal b (rest.take (utf8SeqLen b - 1))) :: l
    else none
termination_by bs => bs.length
decreasing_by
  · simp
  · have := List.length_drop (utf8SeqLen b - 1) rest
    simp
    omega

/-- Model of `decodeURIComponent` on a character list: each maximal run of
well-formed percent-escapes is strictly UTF-8 decoded, other characters
pass through; `none` models the `URIError` the built-in throws on a
truncated or non-hexadecimal escape or on bytes that are not a valid UTF-8
encoding. -/
def percentDecodeChars (cs : List Char) : Option (List Char) :=
  match cs with
  | [] => some []
  | c :: h1 :: h2 :: rest2 =>
    if c = '%' then
      match hexVal h1, hexVal h2 with
      | some a, some b =>
        match utf8DecodeStrict ((16 * a + b) :: (percentRun rest2).1) with
        | some chars => (percentDecodeChars (percentRun rest2).2).map fun l => chars ++ l
        | none => none
      | _, _ => none
    else (percentDecodeChars (h1 :: h2 :: rest2)).map fun l => c :: l
  | c :: rest =>
    if c = '%' then none
    else (percentDecodeChars rest).map fun l => c :: l
termination_by cs.length
decreasing_by
  · have key : ∀ (n : Nat) (cs : List Char), cs.length ≤ n →
        (percentRun cs).2.length ≤ cs.length := by
      intro n
      induction n with
      | zero =>
        intro cs hcs
        have hnil : cs = [] := List.length_eq_zero.mp (by omega)
        subst hnil
        simp [percentRun]
      | succ n ih =>
        intro cs hcs
        rcases cs with _ | ⟨c, _ | ⟨d1, _ | ⟨d2, rest⟩⟩⟩
        · simp [percentRun]
        · simp [percentRun]
        · simp [percentRun]
        · have hr := ih rest (by simp at hcs; omega)
          unfold percentRun
          by_cases hc : c = '%'
          · simp only [hc, if_pos rfl]
            cases hexVal d1 <;> cases hexVal d2 <;> simp <;> omega
          · simp [hc]
    have := key rest2.length rest2 le_rfl
    simp
    omega
  · simp
  · simp

/-- Model of `decodeURIComponent`: `none` is a thrown `URIError`. -/
def decodeURIComponent (s : String) : Option String :=
  (percentDecodeChars s.data).map fun l => (⟨l⟩ : String)

/- ===== JS number formatting and parsing ===== -/

/-- Decimal digit character. -/
def digitChar (d : Nat) : Char := Char.ofNat (48 + d)

/-- Decimal digits of a natural number, most significant first
(the output of `String(n)` for a non-negative integer). -/
def natToDigits (n : Nat) : List Char :=
  if h : n < 10 then [digitChar n] else natToDigits (n / 10) ++ [digitChar (n % 10)]
decreasing_by
  exact Nat.div_lt_self (by omega) (by omega)

/-- Text a JS number prints as inside `Array.prototype.join` and string
contexts: `NaN` prints as "NaN", integers in decimal with a sign. -/
def jsNumToChars : Option Int → List Char
  | none => ['N', 'a', 'N']
  | some i => if i < 0 then '-' :: natToDigits i.natAbs else natToDigits i.toNat

/-- Coercion a JS string context applies to a possibly-undefined string. -/
def jsToStringChars : Option (List Char) → List Char
  | none => ("undefined" : String).data
  | some l => l

/-- Element conversion used by `Array.prototype.join`: `undefined` becomes
the empty string (unlike other string contexts). -/
def jsJoinElemChars : Option (List Char) → List Char
  | none => []
  | some l => l

/-- Longest leading run of decimal digits, as a number; `none` when there is
no leading digit (the NaN result of `parseInt`). -/
def parseDigits (cs : List Char) : Option Nat :=
  if (cs.takeWhile fun c => c.isDigit).isEmpty then none
  else some ((cs.takeWhile fun c => c.isDigit).foldl (fun a c => 10 * a + (c.toNat - 48)) 0)

/-- Longest leading run of hexadecimal digits, as a number; `none` when
there is no leading hex digit. -/
def parseHexDigits (cs : List Char) : Option Nat :=
  if (cs.takeWhile fun c => (hexVal c).isSome).isEmpty then none
  else some ((cs.takeWhile fun c => (hexVal c).isSome).foldl
    (fun a c => 16 * a + (hexVal c).getD 0) 0)

/-- The characters the JS string trimming used by `parseInt` removes:
WhiteSpace (tab, VT, FF, space, NBSP, BOM and the Unicode space
separators) and LineTerminator (LF, CR, LS, PS). -/
def isJsSpace (c : Char) : Bool :=
  let n := c.toNat
  n == 9 || n == 10 || n == 11 || n == 12 || n == 13 || n == 32 || n == 160 ||
  n == 5760 || (8192 ≤ n && n ≤ 8202) || n == 8232 || n == 8233 || n == 8239 ||
  n == 8287 || n == 12288 || n == 65279

/-- The digit parsing of `parseInt` after trimming and sign handling: a
leading "0x" or "0X" switches to radix 16 and is consumed, otherwise the
longest decimal-digit prefix is taken. -/
def parseIntBody (cs : List Char) : Option Nat :=
  match cs with
  | c :: x :: rest =>
    if c = '0' ∧ (x = 'x' ∨ x = 'X') then parseHexDigits rest
    else parseDigits (c :: x :: rest)
  | l => parseDigits l

/-- Model of `parseInt(s)` with an undefined radix: trim JS whitespace,
take an optional sign, detect an optional hexadecimal prefix, parse the
longest digit prefix; NaN (`none`) when no digit follows. -/
def jsParseIntChars (cs : List Char) : Option Int :=
  match cs.dropWhile isJsSpace with
  | [] => none
  | c :: rest =>
    if c = '-' then (parseIntBody rest).map fun n => -(n : Int)
    else if c = '+' then (parseIntBody rest).map fun n => (n : Int)
    else (parseIntBody (c :: rest)).map fun n => (n : Int)

/-- `parseInt` applied to an array slot that may be `undefined`; JS
stringifies `undefined` to "undefined" first, which parses to NaN. -/
def jsParseInt (o : Option (List Char)) : Option Int :=
  jsParseIntChars (jsToStringChars o)

/-- Addition of JS numbers: NaN propagates. -/
def jsAdd : Option Int → Option Int → Option Int
  | some a, some b => some (a + b)
  | _, _ => none

/-- Subtraction of JS numbers: NaN propagates. -/
def jsSub : Option Int → Option Int → Option Int
  | some a, some b => some (a - b)
  | _, _ => none

/- ===== Project ===== -/

/-- A project and the time spent working on it (the `Project` class).
`state` is `none` when the JS slot holds `undefined` (reachable only
through `deserialize` of a short string); the numeric fields are `none`
when they hold NaN. `onChange` records whether a callback function is
installed in the single `_onChange` slot. -/
structure Project where
  name : String
  state : Option String
  timeSpentInPreviousIterations : Option Int
  currentIterationStartTime : Option Int
  onChange : Bool
deriving DecidableEq

/-- The `Project.State.STOPPED` tag. -/
def Project.State.STOPPED : String := "stopped"

/-- The `Project.State.RUNNING` tag. -/
def Project.State.RUNNING : String := "running"

/-- The `Project` constructor function: `new Project(name)`. -/
def Project.make (name : String) : Project :=
  { name := name
    state := some Project.State.STOPPED
    timeSpentInPreviousIterations := some 0
    currentIterationStartTime := some 0
    onChange := false }

/-- Number of callback invocations `_callOnChange` performs. -/
def Project.callOnChange (p : Project) : Nat :=
  if p.onChange then 1 else 0

/-- `_getCurrentIterationTime`: wall clock minus the iteration start. -/
def Project.getCurrentIterationTime (p : Project) (now : Int) : Option Int :=
  jsSub (some now) p.currentIterationStartTime

/-- `getTimeSpent`, with the post-state and onChange-invocation count of the
body made explicit: the body only reads attributes and calls no handler. -/
def Project.getTimeSpent (p : Project) (now : Int) : Option Int × Project × Nat :=
  let result := p.timeSpentInPreviousIterations
  let result :=
    if p.state = some Project.State.RUNNING then
      jsAdd result (p.getCurrentIterationTime now)
    else result
  (result, p, 0)

/-- `start()`: no-op when already running, else record the iteration start
and fire `onChange`. -/
def Project.start (p : Project) (now : Int) : Project × Nat :=
  if p.state = some Project.State.RUNNING then (p, 0)
  else
    let p1 := { p with state := some Project.State.RUNNING
                       currentIterationStartTime := some now }
    (p1, p1.callOnChange)

/-- `stop()`: no-op when already stopped, else add the iteration length to
the accumulated time, zero the iteration start and fire `onChange`. -/
def Project.stop (p : Project) (now : Int) : Project × Nat :=
  if p.state = some Project.State.STOPPED then (p, 0)
  else
    let p1 := { p with
                state := some Project.State.STOPPED
                timeSpentInPreviousIterations :=
                  jsAdd p.timeSpentInPreviousIterations (p.getCurrentIterationTime now)
                currentIterationStartTime := some 0 }
    (p1, p1.callOnChange)

/-- `reset()`: `stop()` then zero the accumulated time and fire `onChange`
once more. -/
def Project.reset (p : Project) (now : Int) : Project × Nat :=
  let r := p.stop now
  let p1 := { r.1 with timeSpentInPreviousIterations := some 0 }
  (p1, r.2 + p1.callOnChange)

/-- `serialize()` at the character level: the four fields joined with
ampersands as `Array.prototype.join` renders them. -/
def Project.serializeChars (p : Project) : List Char :=
  joinChar '&'
    [encodeChars p.name.data,
     jsJoinElemChars (p.state.map String.data),
     jsNumToChars p.timeSpentInPreviousIterations,
     jsNumToChars p.currentIterationStartTime]

/-- `serialize()`. -/
def Project.serialize (p : Project) : String :=
  ⟨p.serializeChars⟩

/-- `deserialize(serialized)`, with the onChange-invocation count and the
normal-completion flag of the body made explicit (the `splitChar` calls
inline the single JS `parts` local). The body assigns the four attributes
from the split parts and calls no handler; parts beyond the end of the
split are the JS `undefined` value (`none`). The first assignment evaluates
`decodeURIComponent`, so when that throws a `URIError` (the `none` branch)
the exception escapes with every attribute still unchanged, flagged by
`false` in the last component. -/
def Project.deserialize (p : Project) (serialized : String) : Project × Nat × Bool :=
  match percentDecodeChars (jsToStringChars (splitChar '&' serialized.data)[0]?) with
  | none => (p, 0, false)
  | some nameChars =>
    ({ p with
       name := ⟨nameChars⟩
       state := (splitChar '&' serialized.data)[1]?.map fun l => (⟨l⟩ : String)
       timeSpentInPreviousIterations := jsParseInt (splitChar '&' serialized.data)[2]?
       currentIterationStartTime := jsParseInt (splitChar '&' serialized.data)[3]? },
     0, true)

/- ===== Projects ===== -/

/-- A notification fired by the project list: `_onAdd` receives the added
project, `_onRemove` receives the index passed to `remove`. -/
inductive Evt where
  | add : Project → Evt
  | removeIdx : Int → Evt
deriving DecidableEq

/-- The `Projects` class: the ordered project array and the two single-slot
callback installation flags. -/
structure Projects where
  projects : List Project
  onAdd : Bool
  onRemove : Bool
deriving DecidableEq

/-- `length()`. -/
def Projects.length (l : Projects) : Nat :=
  l.projects.length

/-- `get(index)`: `undefined` (here `none`) when out of bounds. -/
def Projects.get (l : Projects) (index : Nat) : Option Project :=
  l.projects[index]?

/-- `Array.prototype.splice(start, 1)`: a negative start counts from the
end (clamped at 0), a start at or beyond the length removes nothing. -/
def spliceRemoveOne (l : List Project) (start : Int) : List Project :=
  let s : Nat := if start < 0 then (start + l.length).toNat else min start.toNat l.length
  l.take s ++ l.drop (s + 1)

/-- `add(project)`: push at the end, then fire `onAdd` with the project. -/
def Projects.add (l : Projects) (p : Project) : Projects × List Evt :=
  ({ l with projects := l.projects ++ [p] },
   if l.onAdd then [Evt.add p] else [])

/-- `remove(index)`: fire `onRemove` with the index, then splice. Note the
source calls `_callOnRemove(index)` unconditionally, before and regardless
of the splice. -/
def Projects.remove (l : Projects) (index : Int) : Projects × List Evt :=
  ({ l with projects := spliceRemoveOne l.projects index },
   if l.onRemove then [Evt.removeIdx index] else [])

/-- The `while (this._projects.length > 0) this.remove(0)` loop at the head
of `Projects.deserialize`. -/
def Projects.removeAll (l : Projects) : Projects × List Evt :=
  if l.projects.isEmpty then (l, [])
  else
    let r := l.remove 0
    let rest := r.1.removeAll
    (rest.1, r.2 ++ rest.2)
termination_by l.projects.length
decreasing_by
  rename_i h
  have hrw : ((l.remove 0).1).projects = l.projects.tail := by
    simp [Projects.remove, spliceRemoveOne, List.drop_one]
  rw [hrw]
  cases hp : l.projects with
  | nil => rw [hp] at h; simp at h
  | cons x xs => simp

/-- `serialize()`: each project serialized (the `forEach` push loop),
joined with pipes. -/
def Projects.serializeChars (l : Projects) : List Char :=
  joinChar '|' (l.projects.map Project.serializeChars)

/-- `serialize()`. -/
def Projects.serialize (l : Projects) : String :=
  ⟨l.serializeChars⟩

/-- The `for` loop of `Projects.deserialize`: for each serialized piece,
construct `new Project("")`, deserialize it from the piece and `add` it.
When a piece raises a `URIError` inside `deserialize`, the fresh project is
discarded without being added, the loop aborts, and the exception escapes
(final flag `false`); the projects added so far remain. -/
def Projects.addLoop (acc : Projects × List Evt) : List (List Char) → (Projects × List Evt) × Bool
  | [] => (acc, true)
  | piece :: rest =>
    if ((Project.make "").deserialize ⟨piece⟩).2.2 then
      Projects.addLoop
        ((acc.1.add (((Project.make "").deserialize ⟨piece⟩)).1).1,
         acc.2 ++ (acc.1.add (((Project.make "").deserialize ⟨piece⟩)).1).2)
        rest
    else (acc, false)

/-- `deserialize(serialized)`: empty the list through `remove` (so that
`onRemove` fires), split on pipes, and `add` one freshly deserialized
project per piece (so that `onAdd` fires). The last component is `false`
when a `URIError` escaped mid-loop, leaving the list partially rebuilt. -/
def Projects.deserialize (l : Projects) (serialized : String) : Projects × List Evt × Bool :=
  ((Projects.addLoop l.removeAll (splitChar '|' serialized.data)).1.1,
   (Projects.addLoop l.removeAll (splitChar '|' serialized.data)).1.2,
   (Projects.addLoop l.removeAll (splitChar '|' serialized.data)).2)

/- ===== Project list + DOM storage ===== -/

/-- The mutable top-level state of the application: the `projects` global
and the `lastSerializedProjectsString` global (initially `undefined`,
hence the `Option`). -/
structure AppState where
  projects : Projects
  lastSerializedProjectsString : Option String
deriving DecidableEq

/-- `loadProjects()`: when the store holds a string (absence is modelled by
`none`, the `undefined` of `loadSerializedProjectsString`), deserialize it
into the project list and remember it as the last seen snapshot. When the
deserialization raises a `URIError`, the assignment of
`lastSerializedProjectsString` that follows it is never executed and the
exception escapes (final flag `false`); the mutations `deserialize` made to
the list before throwing persist. -/
def loadProjects (st : AppState) (stored : Option String) : (AppState × List Evt) × Bool :=
  match stored with
  | some s =>
    if (st.projects.deserialize s).2.2 then
      ((⟨(st.projects.deserialize s).1, some s⟩, (st.projects.deserialize s).2.1), true)
    else
      ((⟨(st.projects.deserialize s).1, st.lastSerializedProjectsString⟩,
        (st.projects.deserialize s).2.1), false)
  | none => ((st, []), true)

/-- `projectsHaveChangedOutsideApplication()`: the JS `!=` comparison of the
freshly read store text against the last written snapshot; `undefined`
compares equal only to `undefined`. -/
def projectsHaveChangedOutsideApplication (st : AppState) (stored : Option String) : Bool :=
  stored ≠ st.lastSerializedProjectsString

/-- The synchronization-monitor part of the periodic timer tick: reload
the projects exactly when the stored text differs from the last snapshot
(both reads within one tick see the same stored value). The flag is `false`
when a `URIError` escaped the tick callback. -/
def monitorTick (st : AppState) (stored : Option String) : (AppState × List Evt) × Bool :=
  if projectsHaveChangedOutsideApplication st stored then loadProjects st stored
  else ((st, []), true)

/-- Repeated observation: call `getTimeSpent` `k` times in a row, reading
the wall clock each time, threading the (never actually modified) project
through and summing the onChange-invocation counts. -/
def iterGetTimeSpent (p : Project) (times : Nat → Int) : Nat → Project × Nat
  | 0 => (p, 0)
  | k + 1 =>
    let r := p.getTimeSpent (times 0)
    let rest := iterGetTimeSpent r.2.1 (fun i => times (i + 1)) k
    (rest.1, r.2.2 + rest.2)

/-- A project whose attributes lie in the validated domain of the data
model: a recognized state tag and integer (non-NaN) time fields. Every
project reachable through the constructor and `start` / `stop` / `reset`
alone is valid; only `deserialize` of malformed text leaves the domain. -/
def Project.valid (p : Project) : Prop :=
  (p.state = some Project.State.STOPPED ∨ p.state = some Project.State.RUNNING) ∧
  p.timeSpentInPreviousIterations.isSome ∧ p.currentIterationStartTime.isSome

instance (p : Project) : Decidable p.valid := by
  unfold Project.valid
  infer_instance

/-- The four serialized attributes of a project, as a tuple (the callback
slot is not part of the codec). -/
def projFields (p : Project) : String × Option String × Option Int × Option Int :=
  (p.name, p.state, p.timeSpentInPreviousIterations, p.currentIterationStartTime)

/- ===== Lemmas: split and join ===== -/

theorem splitChar_of_not_mem {sep : Char} {a : List Char} (h : sep ∉ a) :
    splitChar sep a = [a] := by
  induction a with
  | nil => rfl
  | cons c cs ih =>
    have hc : ¬ c = sep := fun e => h (e ▸ List.mem_cons_self c cs)
    rw [splitChar, if_neg hc, ih fun hm => h (List.mem_cons_of_mem _ hm)]

theorem splitChar_append {sep : Char} {a : List Char} (rest : List Char) (h : sep ∉ a) :
    splitChar sep (a ++ sep :: rest) = a :: splitChar sep rest := by
  induction a with
  | nil => simp [splitChar]
  | cons c cs ih =>
    have hc : ¬ c = sep := fun e => h (e ▸ List.mem_cons_self c cs)
    rw [List.cons_append, splitChar, if_neg hc, ih fun hm => h (List.mem_cons_of_mem _ hm)]

theorem splitChar_joinChar (sep : Char) (ps : List (List Char)) (hne : ps ≠ [])
    (h : ∀ p ∈ ps, sep ∉ p) : splitChar sep (joinChar sep ps) = ps := by
  match ps with
  | [x] => exact splitChar_of_not_mem (h x (List.mem_singleton_self x))
  | x :: y :: t =>
    rw [joinChar, splitChar_append _ (h x (List.mem_cons_self x _))]
    rw [splitChar_joinChar sep (y :: t) (by simp) fun p hp => h p (List.mem_cons_of_mem _ hp)]

/- ===== Lemmas: characters produced by the encoders ===== -/

theorem char_toNat_lt (c : Char) : c.toNat < 1114112 := by
  have h := c.valid
  simp only [Char.toNat]
  rcases h with h | h
  · omega
  · omega

theorem utf8Bytes_lt {n : Nat} (hn : n < 1114112) : ∀ b ∈ utf8Bytes n, b < 256 := by
  intro b hb
  unfold utf8Bytes at hb
  split_ifs at hb <;> simp at hb <;> omega

theorem hexDigit_ne_delim : ∀ d < 16, hexDigit d ≠ '&' ∧ hexDigit d ≠ '|' := by decide

theorem unreserved_ne_delim {c : Char} (h : unreservedChar c) : c ≠ '&' ∧ c ≠ '|' := by
  constructor <;> rintro rfl <;> simp [unreservedChar] at h

theorem mem_byteHex_ne_delim {b : Nat} (hb : b < 256) {c : Char} (hc : c ∈ byteHex b) :
    c ≠ '&' ∧ c ≠ '|' := by
  simp [byteHex] at hc
  rcases hc with rfl | rfl | rfl
  · decide
  · exact hexDigit_ne_delim _ (by omega)
  · exact hexDigit_ne_delim _ (by omega)

theorem mem_encodeChar_ne_delim {c d : Char} (h : d ∈ encodeChar c) : d ≠ '&' ∧ d ≠ '|' := by
  unfold encodeChar at h
  split_ifs at h with hu
  · simp at h
    exact h ▸ unreserved_ne_delim hu
  · simp at h
    obtain ⟨b, hb, hd⟩ := h
    exact mem_byteHex_ne_delim (utf8Bytes_lt (char_toNat_lt c) b hb) hd

theorem mem_encodeChars_ne_delim {l : List Char} {d : Char} (h : d ∈ encodeChars l) :
    d ≠ '&' ∧ d ≠ '|' := by
  simp [encodeChars] at h
  obtain ⟨c, _, hd⟩ := h
  exact mem_encodeChar_ne_delim hd

theorem digitChar_digit : ∀ d < 10, (digitChar d).isDigit = true := by decide

theorem natToDigits_all_digits (n : Nat) : ∀ c ∈ natToDigits n, c.isDigit = true := by
  induction n using Nat.strong_induction_on with
  | _ n ih =>
    rw [natToDigits]
    split_ifs with h
    · intro c hc
      rw [List.mem_singleton] at hc
      exact hc ▸ digitChar_digit n h
    · intro c hc
      rcases List.mem_append.mp hc with hm | hm
      · exact ih (n / 10) (Nat.div_lt_self (by omega) (by omega)) c hm
      · rw [List.mem_singleton] at hm
        exact hm ▸ digitChar_digit (n % 10) (Nat.mod_lt n (by omega))

theorem digit_ne_delim {c : Char} (h : c.isDigit = true) :
    c ≠ '&' ∧ c ≠ '|' ∧ c ≠ ' ' ∧ c ≠ '-' ∧ c ≠ '+' := by
  refine ⟨?_, ?_, ?_, ?_, ?_⟩ <;> rintro rfl <;> simp [Char.isDigit] at h

theorem mem_jsNumToChars_ne_delim {o : Option Int} {c : Char} (h : c ∈ jsNumToChars o) :
    c ≠ '&' ∧ c ≠ '|' := by
  match o with
  | none =>
    simp [jsNumToChars] at h
    rcases h with rfl | rfl | rfl <;> decide
  | some i =>
    simp only [jsNumToChars] at h
    split_ifs at h
    · rcases List.mem_cons.mp h with rfl | hm
      · decide
      · have := digit_ne_delim (natToDigits_all_digits _ c hm)
        exact ⟨this.1, this.2.1⟩
    · have := digit_ne_delim (natToDigits_all_digits _ c h)
      exact ⟨this.1, this.2.1⟩

theorem state_tag_ne_delim {o : Option String}
    (ho : o = some Project.State.STOPPED ∨ o = some Project.State.RUNNING) :
    ∀ c ∈ jsJoinElemChars (o.map String.data), c ≠ '&' ∧ c ≠ '|' := by
  rcases ho with rfl | rfl <;> decide

/- ===== Lemmas: the percent codec round-trips ===== -/

theorem hexVal_hexDigit : ∀ d < 16, hexVal (hexDigit d) = some d := by decide

theorem unreserved_ne_pct {c : Char} (h : unreservedChar c) : c ≠ '%' := by
  rintro rfl
  simp [unreservedChar] at h

theorem percentRun_not_pct {c : Char} {cs : List Char} (hc : c ≠ '%') :
    percentRun (c :: cs) = ([], c :: cs) := by
  match cs with
  | [] => rfl
  | [h1] => rfl
  | h1 :: h2 :: rest => simp [percentRun, hc]

theorem percentRun_escape {h1 h2 : Char} {a b : Nat} {rest : List Char}
    (e1 : hexVal h1 = some a) (e2 : hexVal h2 = some b) :
    percentRun ('%' :: h1 :: h2 :: rest) =
      ((16 * a + b) :: (percentRun rest).1, (percentRun rest).2) := by
  rw [percentRun]
  simp [e1, e2]

theorem percentRun_byteHex {b : Nat} (hb : b < 256) (rest : List Char) :
    percentRun (byteHex b ++ rest) = (b :: (percentRun rest).1, (percentRun rest).2) := by
  have e1 := hexVal_hexDigit (b / 16) (by omega)
  have e2 := hexVal_hexDigit (b % 16) (by omega)
  have eb : 16 * (b / 16) + b % 16 = b := by omega
  simp only [byteHex, List.cons_append, List.nil_append]
  rw [percentRun_escape e1 e2, eb]

theorem percentRun_escEnc {bs : List Nat} (hb : ∀ b ∈ bs, b < 256) (rest : List Char) :
    percentRun ((bs.map byteHex).flatten ++ rest) =
      (bs ++ (percentRun rest).1, (percentRun rest).2) := by
  induction bs with
  | nil => simp
  | cons b bt ih =>
    rw [List.map_cons, List.flatten_cons, List.append_assoc,
      percentRun_byteHex (hb b (List.mem_cons_self b bt)) _,
      ih fun x hx => hb x (List.mem_cons_of_mem _ hx)]
    simp

theorem utf8Bytes_ne_nil (n : Nat) : utf8Bytes n ≠ [] := by
  unfold utf8Bytes
  split_ifs <;> simp

theorem char_not_surrogate (c : Char) : ¬ (55296 ≤ c.toNat ∧ c.toNat ≤ 57343) := by
  have h := c.valid
  simp only [Char.toNat]
  rcases h with h | h
  · omega
  · omega

theorem sdecode_nil : utf8DecodeStrict [] = some [] := by
  rw [utf8DecodeStrict]

theorem sdecode_ascii {b : Nat} (h : b < 128) (rest : List Nat) :
    utf8DecodeStrict (b :: rest) = (utf8DecodeStrict rest).map fun l => Char.ofNat b :: l := by
  rw [utf8DecodeStrict, if_pos h]

theorem sdecode_multi {b : Nat} (h1 : ¬ b < 128) (h2 : ¬ b < 194) (rest : List Nat) :
    utf8DecodeStrict (b :: rest) =
      if (rest.take (utf8SeqLen b - 1)).length = utf8SeqLen b - 1 ∧
          utf8ContsOk (rest.take (utf8SeqLen b - 1)) ∧
          utf8Min b ≤ utf8FoldVal b (rest.take (utf8SeqLen b - 1)) ∧
          utf8FoldVal b (rest.take (utf8SeqLen b - 1)) < 1114112 ∧
          ¬(55296 ≤ utf8FoldVal b (rest.take (utf8SeqLen b - 1)) ∧
            utf8FoldVal b (rest.take (utf8SeqLen b - 1)) ≤ 57343) then
        (utf8DecodeStrict (rest.drop (utf8SeqLen b - 1))).map
          fun l => Char.ofNat (utf8FoldVal b (rest.take (utf8SeqLen b - 1))) :: l
      else none := by
  rw [utf8DecodeStrict, if_neg h1, if_neg h2]

theorem utf8DecodeStrict_utf8Bytes (c : Char) (bs : List Nat) :
    utf8DecodeStrict (utf8Bytes c.toNat ++ bs) =
      (utf8DecodeStrict bs).map fun l => c :: l := by
  have hn := char_toNat_lt c
  have hofn := Char.ofNat_toNat c
  have hsur := char_not_surrogate c
  unfold utf8Bytes
  split_ifs with h1 h2 h3
  · rw [List.cons_append, List.nil_append, sdecode_ascii h1]
    simp only [hofn]
  · rw [List.cons_append, List.cons_append, List.nil_append,
      sdecode_multi (by omega) (by omega)]
    have hl : utf8SeqLen (192 + c.toNat / 64) - 1 = 1 := by
      simp only [utf8SeqLen]
      rw [if_neg (by omega), if_pos (by omega)]
    rw [hl]
    simp only [List.take_succ_cons, List.take_zero, List.drop_succ_cons, List.drop_zero]
    have hv : utf8FoldVal (192 + c.toNat / 64) [128 + c.toNat % 64] = c.toNat := by
      simp only [utf8FoldVal, List.foldl_cons, List.foldl_nil, utf8LeadVal]
      rw [if_neg (by omega), if_pos (by omega)]
      omega
    rw [hv, if_pos ?hc2]
    case hc2 =>
      refine ⟨rfl, ?_, ?_, by omega, by omega⟩
      · simp [utf8ContsOk]
        omega
      · simp only [utf8Min]
        rw [if_pos (by omega)]
        omega
    simp only [hofn]
  · rw [List.cons_append, List.cons_append, List.cons_append, List.nil_append,
      sdecode_multi (by omega) (by omega)]
    have hl : utf8SeqLen (224 + c.toNat / 4096) - 1 = 2 := by
      simp only [utf8SeqLen]
      rw [if_neg (by omega), if_neg (by omega), if_pos (by omega)]
    rw [hl]
    simp only [List.take_succ_cons, List.take_zero, List.drop_succ_cons, List.drop_zero]
    have hv : utf8FoldVal (224 + c.toNat / 4096)
        [128 + c.toNat / 64 % 64, 128 + c.toNat % 64] = c.toNat := by
      simp only [utf8FoldVal, List.foldl_cons, List.foldl_nil, utf8LeadVal]
      rw [if_neg (by omega), if_neg (by omega), if_pos (by omega)]
      omega
    rw [hv, if_pos ?hc3]
    case hc3 =>
      refine ⟨rfl, ?_, ?_, by omega, hsur⟩
      · simp [utf8ContsOk]
        omega
      · simp only [utf8Min]
        rw [if_neg (by omega), if_pos (by omega)]
        omega
    simp only [hofn]
  · rw [List.cons_append, List.cons_append, List.cons_append, List.cons_append,
      List.nil_append, sdecode_multi (by omega) (by omega)]
    have hl : utf8SeqLen (240 + c.toNat / 262144) - 1 = 3 := by
      simp only [utf8SeqLen]
      rw [if_neg (by omega), if_neg (by omega), if_neg (by omega)]
    rw [hl]
    simp only [List.take_succ_cons, List.take_zero, List.drop_succ_cons, List.drop_zero]
    have hv : utf8FoldVal (240 + c.toNat / 262144)
        [128 + c.toNat / 4096 % 64, 128 + c.toNat / 64 % 64, 128 + c.toNat % 64] =
        c.toNat := by
      simp only [utf8FoldVal, List.foldl_cons, List.foldl_nil, utf8LeadVal]
      rw [if_neg (by omega), if_neg (by omega), if_neg (by omega)]
      omega
    rw [hv, if_pos ?hc4]
    case hc4 =>
      refine ⟨rfl, ?_, ?_, by omega, by omega⟩
      · simp [utf8ContsOk]
        omega
      · simp only [utf8Min]
        rw [if_neg (by omega), if_neg (by omega)]
        omega
    simp only [hofn]

theorem utf8DecodeStrict_flatten (l : List Char) (bs : List Nat) :
    utf8DecodeStrict ((l.map fun c => utf8Bytes c.toNat).flatten ++ bs) =
      (utf8DecodeStrict bs).map fun t => l ++ t := by
  induction l with
  | nil =>
    simp only [List.map_nil, List.flatten_nil, List.nil_append]
    cases utf8DecodeStrict bs <;> simp
  | cons c ct ih =>
    rw [List.map_cons, List.flatten_cons, List.append_assoc, utf8DecodeStrict_utf8Bytes, ih]
    cases utf8DecodeStrict bs <;> simp

theorem percentRun_encodeChars (l : List Char) :
    percentRun (encodeChars l) =
      (((l.takeWhile fun c => !unreservedChar c).map fun c => utf8Bytes c.toNat).flatten,
       encodeChars (l.dropWhile fun c => !unreservedChar c)) := by
  induction l with
  | nil => rfl
  | cons c cs ih =>
    by_cases hu : unreservedChar c
    · have henc : encodeChars (c :: cs) = c :: encodeChars cs := by
        simp [encodeChars, encodeChar, hu]
      rw [henc, percentRun_not_pct (unreserved_ne_pct hu), List.takeWhile_cons,
        List.dropWhile_cons]
      simp [hu, henc]
    · have hbnd := utf8Bytes_lt (char_toNat_lt c)
      have henc : encodeChars (c :: cs) =
          ((utf8Bytes c.toNat).map byteHex).flatten ++ encodeChars cs := by
        simp [encodeChars, encodeChar, hu]
      rw [henc, percentRun_escEnc hbnd, ih, List.takeWhile_cons, List.dropWhile_cons]
      simp [hu]

theorem pdc_nil : percentDecodeChars [] = some [] := by
  simp [percentDecodeChars]

theorem pdc_pct_one : percentDecodeChars ['%'] = none := by
  simp [percentDecodeChars]

theorem pdc_not_pct {c : Char} {cs : List Char} (hc : c ≠ '%') :
    percentDecodeChars (c :: cs) = (percentDecodeChars cs).map fun l => c :: l := by
  match cs with
  | [] => simp [percentDecodeChars, hc]
  | [d1] => simp [percentDecodeChars, hc]
  | d1 :: d2 :: rest => simp [percentDecodeChars, hc]

theorem pdc_escape {h1 h2 : Char} {a b : Nat} {rest : List Char}
    (e1 : hexVal h1 = some a) (e2 : hexVal h2 = some b) :
    percentDecodeChars ('%' :: h1 :: h2 :: rest) =
      match utf8DecodeStrict ((16 * a + b) :: (percentRun rest).1) with
      | some chars => (percentDecodeChars (percentRun rest).2).map fun l => chars ++ l
      | none => none := by
  rw [percentDecodeChars]
  simp [e1, e2]

theorem dropWhile_length_le {α : Type} (p : α → Bool) (l : List α) :
    (List.dropWhile p l).length ≤ l.length := by
  induction l with
  | nil => simp
  | cons x xs ih =>
    rw [List.dropWhile_cons]
    split_ifs <;> simp <;> omega

theorem pdc_encodeChars_aux : ∀ (n : Nat) (l : List Char), l.length ≤ n →
    percentDecodeChars (encodeChars l) = some l := by
  intro n
  induction n with
  | zero =>
    intro l hl
    have hnil : l = [] := List.length_eq_zero.mp (by omega)
    subst hnil
    exact pdc_nil
  | succ n ih =>
    intro l hl
    match l with
    | [] => exact pdc_nil
    | c :: cs =>
      have hcs : cs.length ≤ n := by simpa using hl
      by_cases hu : unreservedChar c
      · have henc : encodeChars (c :: cs) = c :: encodeChars cs := by
          simp [encodeChars, encodeChar, hu]
        rw [henc, pdc_not_pct (unreserved_ne_pct hu), ih cs hcs]
        rfl
      · have hbnd := utf8Bytes_lt (char_toNat_lt c)
        match hb : utf8Bytes c.toNat with
        | [] => exact absurd hb (utf8Bytes_ne_nil _)
        | b0 :: btail =>
          have hb0 : b0 < 256 := hbnd b0 (by rw [hb]; exact List.mem_cons_self _ _)
          have hbt : ∀ x ∈ btail, x < 256 := fun x hx =>
            hbnd x (by rw [hb]; exact List.mem_cons_of_mem _ hx)
          have henc : encodeChars (c :: cs) =
              '%' :: hexDigit (b0 / 16) :: hexDigit (b0 % 16) ::
                ((btail.map byteHex).flatten ++ encodeChars cs) := by
            simp [encodeChars, encodeChar, hu, hb, byteHex]
          rw [henc, pdc_escape (hexVal_hexDigit (b0 / 16) (by omega))
            (hexVal_hexDigit (b0 % 16) (by omega)), percentRun_escEnc hbt,
            percentRun_encodeChars cs]
          have eb : 16 * (b0 / 16) + b0 % 16 = b0 := by omega
          rw [eb]
          have hflat : (b0 :: (btail ++
              (((cs.takeWhile fun c => !unreservedChar c).map fun c =>
                utf8Bytes c.toNat).flatten))) =
              (((c :: cs.takeWhile fun c => !unreservedChar c).map fun c =>
                utf8Bytes c.toNat).flatten) := by
            rw [List.map_cons, List.flatten_cons, hb, List.cons_append]
          rw [hflat]
          have hdec := utf8DecodeStrict_flatten
            (c :: (cs.takeWhile fun c => !unreservedChar c)) []
          rw [List.append_nil, sdecode_nil] at hdec
          simp only [Option.map_some', List.append_nil] at hdec
          rw [hdec, ih _ (le_trans (dropWhile_length_le _ cs) hcs)]
          simp only [Option.map_some']
          rw [List.cons_append, List.takeWhile_append_dropWhile]

theorem pdc_encodeChars (l : List Char) : percentDecodeChars (encodeChars l) = some l :=
  pdc_encodeChars_aux l.length l le_rfl

theorem decode_encodeURIComponent (s : String) :
    decodeURIComponent (encodeURIComponent s) = some s := by
  cases s with
  | mk data =>
    simp [decodeURIComponent, encodeURIComponent, pdc_encodeChars]

/- ===== Lemmas: the number codec round-trips ===== -/

theorem string_mk_data (s : String) : String.mk s.data = s := by
  cases s
  rfl

theorem takeWhile_all {p : Char → Bool} {l : List Char} (h : ∀ c ∈ l, p c = true) :
    l.takeWhile p = l := by
  induction l with
  | nil => rfl
  | cons c cs ih =>
    rw [List.takeWhile_cons, if_pos (h c (List.mem_cons_self c cs)),
      ih fun x hx => h x (List.mem_cons_of_mem _ hx)]

theorem natToDigits_ne_nil (n : Nat) : natToDigits n ≠ [] := by
  rw [natToDigits]
  split_ifs <;> simp

theorem digitChar_toNat : ∀ d < 10, (digitChar d).toNat = 48 + d := by decide

theorem digitsFoldl_natToDigits (n : Nat) :
    (natToDigits n).foldl (fun a c => 10 * a + (c.toNat - 48)) 0 = n := by
  induction n using Nat.strong_induction_on with
  | _ n ih =>
    rw [natToDigits]
    split_ifs with h
    · rw [List.foldl_cons, List.foldl_nil, digitChar_toNat n h]
      omega
    · rw [List.foldl_append, ih (n / 10) (Nat.div_lt_self (by omega) (by omega)),
        List.foldl_cons, List.foldl_nil, digitChar_toNat (n % 10) (Nat.mod_lt n (by omega))]
      omega

theorem parseDigits_natToDigits (n : Nat) : parseDigits (natToDigits n) = some n := by
  unfold parseDigits
  rw [takeWhile_all (natToDigits_all_digits n)]
  rw [if_neg (by simpa using natToDigits_ne_nil n), digitsFoldl_natToDigits n]

theorem natToDigits_head_digit (n : Nat) {c : Char} {rest : List Char}
    (h : natToDigits n = c :: rest) : c.isDigit = true :=
  natToDigits_all_digits n c (h ▸ List.mem_cons_self c rest)

theorem jsParseIntChars_cons_eq {c : Char} {rest : List Char} (hsp : isJsSpace c = false) :
    jsParseIntChars (c :: rest) =
      if c = '-' then (parseIntBody rest).map fun n => -(n : Int)
      else if c = '+' then (parseIntBody rest).map fun n => (n : Int)
      else (parseIntBody (c :: rest)).map fun n => (n : Int) := by
  unfold jsParseIntChars
  rw [List.dropWhile_cons, if_neg (by simp [hsp])]

theorem parseIntBody_of_digits {cs : List Char} (h : ∀ c ∈ cs, c.isDigit = true) :
    parseIntBody cs = parseDigits cs := by
  rcases cs with _ | ⟨c, _ | ⟨x, rest⟩⟩
  · rfl
  · rfl
  · have hx : x.isDigit = true := h x (by simp)
    have hpre : ¬ (c = '0' ∧ (x = 'x' ∨ x = 'X')) := by
      rintro ⟨-, rfl | rfl⟩ <;> simp [Char.isDigit] at hx
    rw [parseIntBody, if_neg hpre]

theorem natToDigits_head (n : Nat) :
    ∃ d, d < 10 ∧ ∃ rest, natToDigits n = digitChar d :: rest := by
  induction n using Nat.strong_induction_on with
  | _ n ih =>
    rw [natToDigits]
    split_ifs with h
    · exact ⟨n, h, [], rfl⟩
    · obtain ⟨d, hd, rest, heq⟩ := ih (n / 10) (Nat.div_lt_self (by omega) (by omega))
      exact ⟨d, hd, rest ++ [digitChar (n % 10)], by rw [heq]; rfl⟩

theorem digitChar_not_space_sign :
    ∀ d < 10, isJsSpace (digitChar d) = false ∧ digitChar d ≠ '-' ∧ digitChar d ≠ '+' := by
  decide

theorem jsParseIntChars_natToDigits (n : Nat) :
    jsParseIntChars (natToDigits n) = some (n : Int) := by
  obtain ⟨d, hd, rest, heq⟩ := natToDigits_head n
  obtain ⟨hsp, hminus, hplus⟩ := digitChar_not_space_sign d hd
  rw [heq, jsParseIntChars_cons_eq hsp, if_neg hminus, if_neg hplus, ← heq,
    parseIntBody_of_digits (natToDigits_all_digits n), parseDigits_natToDigits]
  rfl

theorem jsParseIntChars_jsNumToChars (i : Int) :
    jsParseIntChars (jsNumToChars (some i)) = some i := by
  by_cases hi : i < 0
  · simp only [jsNumToChars, if_pos hi]
    rw [jsParseIntChars_cons_eq (by decide), if_pos rfl,
      parseIntBody_of_digits (natToDigits_all_digits _), parseDigits_natToDigits]
    have hmap : (some i.natAbs).map (fun n => -(n : Int)) = some (-(i.natAbs : Int)) := rfl
    have habs : -((i.natAbs : Int)) = i := by omega
    rw [hmap, habs]
  · simp only [jsNumToChars, if_neg hi]
    rw [jsParseIntChars_natToDigits]
    simp
    omega

/- ===== Lemmas: project serialization round-trips ===== -/

theorem serializeChars_eq (p : Project) :
    p.serializeChars =
      encodeChars p.name.data ++ '&' ::
        (jsJoinElemChars (p.state.map String.data) ++ '&' ::
          (jsNumToChars p.timeSpentInPreviousIterations ++ '&' ::
            jsNumToChars p.currentIterationStartTime)) := by
  simp [Project.serializeChars, joinChar]

theorem amp_not_mem_encodeChars (l : List Char) : '&' ∉ encodeChars l :=
  fun h => (mem_encodeChars_ne_delim h).1 rfl

theorem pipe_not_mem_encodeChars (l : List Char) : '|' ∉ encodeChars l :=
  fun h => (mem_encodeChars_ne_delim h).2 rfl

theorem amp_not_mem_num (o : Option Int) : '&' ∉ jsNumToChars o :=
  fun h => (mem_jsNumToChars_ne_delim h).1 rfl

theorem pipe_not_mem_num (o : Option Int) : '|' ∉ jsNumToChars o :=
  fun h => (mem_jsNumToChars_ne_delim h).2 rfl

theorem splitChar_serializeChars (p : Project)
    (hst : p.state = some Project.State.STOPPED ∨ p.state = some Project.State.RUNNING) :
    splitChar '&' p.serializeChars =
      [encodeChars p.name.data,
       jsJoinElemChars (p.state.map String.data),
       jsNumToChars p.timeSpentInPreviousIterations,
       jsNumToChars p.currentIterationStartTime] := by
  rw [serializeChars_eq,
    splitChar_append _ (amp_not_mem_encodeChars p.name.data),
    splitChar_append _ (fun h => (state_tag_ne_delim hst _ h).1 rfl),
    splitChar_append _ (amp_not_mem_num _),
    splitChar_of_not_mem (amp_not_mem_num _)]

theorem deserialize_serialize_fields (q p : Project) (hv : p.valid) :
    projFields ((q.deserialize p.serialize).1) = projFields p ∧
    (q.deserialize p.serialize).2.2 = true := by
  obtain ⟨hst, ht1, ht2⟩ := hv
  obtain ⟨a, ha⟩ := Option.isSome_iff_exists.mp ht1
  obtain ⟨b, hb⟩ := Option.isSome_iff_exists.mp ht2
  have htag : ∃ t, p.state = some t := by
    rcases hst with h | h
    · exact ⟨_, h⟩
    · exact ⟨_, h⟩
  obtain ⟨t, htag⟩ := htag
  unfold Project.deserialize
  have hdata : (p.serialize).data = p.serializeChars := rfl
  rw [hdata, splitChar_serializeChars p hst]
  simp only [List.getElem?_cons_zero, List.getElem?_cons_succ]
  rw [show jsToStringChars (some (encodeChars p.name.data)) = encodeChars p.name.data
      from rfl, pdc_encodeChars]
  rw [htag, ha, hb]
  simp only [projFields, jsJoinElemChars, jsParseInt, jsToStringChars, Option.map_some']
  constructor
  · rw [jsParseIntChars_jsNumToChars, jsParseIntChars_jsNumToChars,
      string_mk_data, string_mk_data, htag, ha, hb]
  · trivial

/- ===== Lemmas: the Projects operations in closed form ===== -/

theorem removeAll_eq (l : Projects) :
    l.removeAll = (⟨[], l.onAdd, l.onRemove⟩,
      if l.onRemove then List.replicate l.projects.length (Evt.removeIdx 0) else []) := by
  generalize hn : l.projects.length = n
  induction n generalizing l with
  | zero =>
    have hnil : l.projects = [] := List.length_eq_zero.mp hn
    unfold Projects.removeAll
    rw [if_pos (by simp [hnil])]
    cases l
    simp_all
  | succ n ih =>
    cases hp : l.projects with
    | nil => rw [hp] at hn; simp at hn
    | cons q qs =>
      unfold Projects.removeAll
      rw [if_neg (by simp [hp])]
      have hr1 : (l.remove 0).1 = ⟨qs, l.onAdd, l.onRemove⟩ := by
        cases l
        simp only [Projects.remove, spliceRemoveOne] at *
        simp_all [List.drop_one]
      have hr2 : (l.remove 0).2 = if l.onRemove then [Evt.removeIdx 0] else [] := by
        simp [Projects.remove]
      show ((l.remove 0).1.removeAll.1, (l.remove 0).2 ++ (l.remove 0).1.removeAll.2) = _
      rw [hr1, hr2, ih ⟨qs, l.onAdd, l.onRemove⟩ (by simpa [hp] using hn)]
      by_cases ho : l.onRemove <;> simp [ho, hp, List.replicate_succ]

theorem addLoop_eq (acc : Projects × List Evt) (pieces : List (List Char))
    (hok : ∀ piece ∈ pieces, ((Project.make "").deserialize ⟨piece⟩).2.2 = true) :
    Projects.addLoop acc pieces =
      ((⟨acc.1.projects ++ pieces.map fun piece => ((Project.make "").deserialize ⟨piece⟩).1,
         acc.1.onAdd, acc.1.onRemove⟩,
        acc.2 ++
          if acc.1.onAdd then
            pieces.map fun piece => Evt.add (((Project.make "").deserialize ⟨piece⟩).1)
          else []), true) := by
  induction pieces generalizing acc with
  | nil =>
    obtain ⟨l, evts⟩ := acc
    cases l
    simp [Projects.addLoop]
  | cons piece rest ih =>
    rw [Projects.addLoop, if_pos (hok piece (List.mem_cons_self piece rest)),
      ih _ fun q hq => hok q (List.mem_cons_of_mem _ hq)]
    obtain ⟨l, evts⟩ := acc
    by_cases ho : l.onAdd <;> simp [Projects.add, ho, List.append_assoc]

theorem addLoop_ok_all {acc : Projects × List Evt} {pieces : List (List Char)}
    (h : (Projects.addLoop acc pieces).2 = true) :
    ∀ piece ∈ pieces, ((Project.make "").deserialize ⟨piece⟩).2.2 = true := by
  induction pieces generalizing acc with
  | nil => simp
  | cons piece rest ih =>
    rw [Projects.addLoop] at h
    by_cases hr : ((Project.make "").deserialize ⟨piece⟩).2.2 = true
    · rw [if_pos hr] at h
      intro q hq
      rcases List.mem_cons.mp hq with rfl | hq2
      · exact hr
      · exact ih h q hq2
    · rw [if_neg hr] at h
      simp at h

theorem projects_deserialize_eq (l : Projects) (s : String)
    (hok : ∀ piece ∈ splitChar '|' s.data,
      ((Project.make "").deserialize ⟨piece⟩).2.2 = true) :
    l.deserialize s =
      (⟨(splitChar '|' s.data).map fun piece => ((Project.make "").deserialize ⟨piece⟩).1,
        l.onAdd, l.onRemove⟩,
       (if l.onRemove then List.replicate l.projects.length (Evt.removeIdx 0) else []) ++
         (if l.onAdd then
           (splitChar '|' s.data).map fun piece =>
             Evt.add (((Project.make "").deserialize ⟨piece⟩).1)
         else []),
       true) := by
  unfold Projects.deserialize
  rw [removeAll_eq, addLoop_eq _ _ hok]
  simp

theorem projects_deserialize_ok_eq (l : Projects) (s : String)
    (hok : (l.deserialize s).2.2 = true) :
    l.deserialize s =
      (⟨(splitChar '|' s.data).map fun piece => ((Project.make "").deserialize ⟨piece⟩).1,
        l.onAdd, l.onRemove⟩,
       (if l.onRemove then List.replicate l.projects.length (Evt.removeIdx 0) else []) ++
         (if l.onAdd then
           (splitChar '|' s.data).map fun piece =>
             Evt.add (((Project.make "").deserialize ⟨piece⟩).1)
         else []),
       true) :=
  projects_deserialize_eq l s (addLoop_ok_all hok)

theorem pipe_not_mem_serializeChars (p : Project)
    (hst : p.state = some Project.State.STOPPED ∨ p.state = some Project.State.RUNNING) :
    '|' ∉ p.serializeChars := by
  rw [serializeChars_eq]
  intro h
  simp only [List.mem_append, List.mem_cons] at h
  rcases h with h | h | h | h | h | h | h
  · exact pipe_not_mem_encodeChars _ h
  · exact absurd h (by decide)
  · exact (state_tag_ne_delim hst _ h).2 rfl
  · exact absurd h (by decide)
  · exact pipe_not_mem_num _ h
  · exact absurd h (by decide)
  · exact pipe_not_mem_num _ h

theorem splitChar_serialize_list (l : Projects) (hne : l.projects ≠ [])
    (hv : ∀ p ∈ l.projects, p.valid) :
    splitChar '|' l.serializeChars = l.projects.map Project.serializeChars := by
  apply splitChar_joinChar
  · simpa using hne
  · intro piece hp
    obtain ⟨p, hpm, rfl⟩ := List.mem_map.mp hp
    exact pipe_not_mem_serializeChars p (hv p hpm).1

theorem list_roundtrip (l₀ l : Projects) (hne : l.projects ≠ [])
    (hv : ∀ p ∈ l.projects, p.valid) :
    (l₀.deserialize l.serialize).1.projects.map projFields = l.projects.map projFields := by
  have hdata : (l.serialize).data = l.serializeChars := rfl
  have hok : ∀ piece ∈ splitChar '|' (l.serialize).data,
      ((Project.make "").deserialize ⟨piece⟩).2.2 = true := by
    rw [hdata, splitChar_serialize_list l hne hv]
    intro piece hp
    obtain ⟨p, hpm, rfl⟩ := List.mem_map.mp hp
    exact (deserialize_serialize_fields (Project.make "") p (hv p hpm)).2
  rw [projects_deserialize_eq _ _ hok]
  simp only [hdata, splitChar_serialize_list l hne hv, List.map_map]
  apply List.map_congr_left
  intro p hp
  exact (deserialize_serialize_fields (Project.make "") p (hv p hp)).1

theorem jsParseInt_undefined : jsParseInt none = none := by decide

theorem deserialize_empty_piece :
    (Project.make "").deserialize ⟨[]⟩ = (⟨"", none, none, none, false⟩, 0, true) := by
  unfold Project.deserialize
  rw [show jsToStringChars (splitChar '&' ((⟨[]⟩ : String)).data)[0]? = [] from rfl, pdc_nil]
  decide

theorem deserialize_pct_piece :
    (Project.make "").deserialize ⟨['%']⟩ = (Project.make "", 0, false) := by
  unfold Project.deserialize
  rw [show jsToStringChars (splitChar '&' ((⟨['%']⟩ : String)).data)[0]? = ['%'] from rfl,
    pdc_pct_one]

/- ===== Claim theorems ===== -/

/-- C1: encoding an empty project list yields the empty string — but, contrary
to the claim, decoding the empty string yields one project (with empty name,
undefined state tag and NaN time fields), not zero projects: the split of the
empty string produces one empty piece and the loop deserializes it. This
theorem evaluates the code at the failing input. -/
theorem C1_empty_string_decodes_to_one_project :
    Projects.serialize ⟨[], false, false⟩ = "" ∧
    ((⟨[], false, false⟩ : Projects).deserialize "").1.projects =
      [⟨"", none, none, none, false⟩] := by
  constructor
  · rfl
  · rw [projects_deserialize_eq _ _ ?hok]
    case hok =>
      intro piece hp
      rw [show splitChar '|' ("" : String).data = [[]] from rfl, List.mem_singleton] at hp
      subst hp
      rw [deserialize_empty_piece]
    show (splitChar '|' ("" : String).data).map
      (fun piece => ((Project.make "").deserialize ⟨piece⟩).1) = _
    rw [show splitChar '|' ("" : String).data = [[]] from rfl, List.map_cons, List.map_nil,
      deserialize_empty_piece]

/-- C2: contrary to the claim, `remove` with an out-of-range index is not a
silent no-op: the source fires `onRemove` with the index unconditionally
(here index 2 on a two-element list, which leaves the list unchanged), and a
negative index is passed to `splice`, which counts it from the end of the
array and really removes an element (here index -1 removes the last
element). This theorem evaluates the code at the failing inputs. -/
theorem C2_remove_out_of_range_fires_onRemove :
    ((⟨[Project.make "A", Project.make "B"], false, true⟩ : Projects).remove 2).2 =
      [Evt.removeIdx 2] ∧
    ((⟨[Project.make "A", Project.make "B"], false, true⟩ : Projects).remove 2).1 =
      ⟨[Project.make "A", Project.make "B"], false, true⟩ ∧
    ((⟨[Project.make "A", Project.make "B"], false, true⟩ : Projects).remove (-1)).1.projects =
      [Project.make "A"] := by
  refine ⟨rfl, ?_, ?_⟩ <;> decide

/-- C3 (counterexample): the round-trip law fails for the empty project
list, because the encoding of the empty list is the empty string, whose
decoding holds one project instead of zero: the length is not preserved. -/
theorem C3_roundtrip_fails_on_empty_list :
    ((⟨[], false, false⟩ : Projects).deserialize
        (Projects.serialize ⟨[], false, false⟩)).1.projects.length ≠
      (⟨[], false, false⟩ : Projects).projects.length := by
  intro h
  rw [show Projects.serialize ⟨[], false, false⟩ = "" from rfl,
    projects_deserialize_eq _ _ ?hok] at h
  case hok =>
    intro piece hp
    rw [show splitChar '|' ("" : String).data = [[]] from rfl, List.mem_singleton] at hp
    subst hp
    rw [deserialize_empty_piece]
  exact absurd h (by decide)

/-- C3 (amended): for every valid project, decoding the encoding reproduces
all four serialized fields exactly, and for every nonempty project list of
valid projects, decoding the encoding preserves length, order and every
projects four fields. -/
theorem C3_roundtrip_projects_and_nonempty_lists :
    (∀ p : Project, p.valid →
      projFields (((Project.make "").deserialize p.serialize).1) = projFields p) ∧
    (∀ l₀ l : Projects, l.projects ≠ [] → (∀ p ∈ l.projects, p.valid) →
      (l₀.deserialize l.serialize).1.projects.map projFields =
        l.projects.map projFields) :=
  ⟨fun p hv => (deserialize_serialize_fields (Project.make "") p hv).1,
   fun l₀ l hne hv => list_roundtrip l₀ l hne hv⟩

/-- C3 (witness): the round-trip theorem applied to a concrete project and a
concrete singleton list. -/
theorem C3_roundtrip_witness :
    projFields (((Project.make "").deserialize (Project.make "Alpha").serialize).1) =
      projFields (Project.make "Alpha") ∧
    ((⟨[], false, false⟩ : Projects).deserialize
        (Projects.serialize ⟨[Project.make "Alpha"], true, true⟩)).1.projects.map projFields =
      (⟨[Project.make "Alpha"], true, true⟩ : Projects).projects.map projFields :=
  ⟨C3_roundtrip_projects_and_nonempty_lists.1 (Project.make "Alpha") (by decide),
   C3_roundtrip_projects_and_nonempty_lists.2 ⟨[], false, false⟩
     ⟨[Project.make "Alpha"], true, true⟩ (by decide) (by decide)⟩

/-- C4 (counterexample): the claim fails when the differing stored text does
not decode: at stored text "%" (which raises a `URIError` inside
`decodeURIComponent` mid-deserialize) the tick neither completes the
replacement nor updates the snapshot variable — `lastSerializedProjectsString`
keeps its old value and the exception escapes the tick. -/
theorem C4_uri_error_tick_skips_snapshot_update :
    (monitorTick ⟨⟨[], false, false⟩, some "x"⟩ (some "%")).1.1.lastSerializedProjectsString =
      some "x" ∧
    (monitorTick ⟨⟨[], false, false⟩, some "x"⟩ (some "%")).2 = false := by
  have hds : (⟨[], false, false⟩ : Projects).deserialize "%" =
      (⟨[], false, false⟩, [], false) := by
    unfold Projects.deserialize
    rw [removeAll_eq, show splitChar '|' ("%" : String).data = [['%']] from rfl,
      Projects.addLoop, deserialize_pct_piece]
    rfl
  have hchg : projectsHaveChangedOutsideApplication ⟨⟨[], false, false⟩, some "x"⟩
      (some "%") = true := by decide
  constructor <;>
  · unfold monitorTick
    rw [if_pos hchg]
    simp [loadProjects, hds]

/-- C4 (amended): on a monitor tick with a stored text present, if the
stored text differs from the last written snapshot and deserializes without
a `URIError`, the in-memory list is replaced by the decoding of the stored
text (one `onRemove` per existing project fired by the removal loop, then
one `onAdd` per decoded project fired by the add loop) and the snapshot
variable is updated; if the stored text equals the snapshot, nothing
changes and nothing fires. -/
theorem C4_monitor_tick_replaces_on_external_change (st : AppState) (s : String) :
    (some s ≠ st.lastSerializedProjectsString →
      (st.projects.deserialize s).2.2 = true →
      monitorTick st (some s) =
        ((⟨⟨(splitChar '|' s.data).map fun piece => ((Project.make "").deserialize ⟨piece⟩).1,
            st.projects.onAdd, st.projects.onRemove⟩, some s⟩,
          (if st.projects.onRemove then
             List.replicate st.projects.projects.length (Evt.removeIdx 0) else []) ++
            if st.projects.onAdd then
              (splitChar '|' s.data).map fun piece =>
                Evt.add (((Project.make "").deserialize ⟨piece⟩).1)
            else []), true)) ∧
    (some s = st.lastSerializedProjectsString → monitorTick st (some s) = ((st, []), true)) := by
  constructor
  · intro hne hok
    unfold monitorTick projectsHaveChangedOutsideApplication
    rw [if_pos (by simpa using hne)]
    simp only [loadProjects]
    rw [if_pos hok, projects_deserialize_ok_eq st.projects s hok]
  · intro heq
    unfold monitorTick projectsHaveChangedOutsideApplication
    rw [if_neg (by simp [heq])]

/-- C4 (witness): the tick theorem applied at concrete states: an external
change whose text decodes cleanly is loaded, an unchanged snapshot is left
alone. -/
theorem C4_monitor_tick_witness :
    monitorTick ⟨⟨[], true, true⟩, none⟩ (some "") =
      ((⟨⟨[((Project.make "").deserialize ⟨[]⟩).1], true, true⟩, some ""⟩,
        [Evt.add (((Project.make "").deserialize ⟨[]⟩).1)]), true) ∧
    monitorTick ⟨⟨[], false, false⟩, some "x"⟩ (some "x") =
      ((⟨⟨[], false, false⟩, some "x"⟩, []), true) := by
  constructor
  · have hok : ((⟨[], true, true⟩ : Projects).deserialize "").2.2 = true := by
      rw [projects_deserialize_eq _ _ ?hok]
      case hok =>
        intro piece hp
        rw [show splitChar '|' ("" : String).data = [[]] from rfl,
          List.mem_singleton] at hp
        subst hp
        rw [deserialize_empty_piece]
    have h := (C4_monitor_tick_replaces_on_external_change ⟨⟨[], true, true⟩, none⟩ "").1
      (by decide) hok
    rw [show splitChar '|' ("" : String).data = [[]] from rfl] at h
    simpa using h
  · exact (C4_monitor_tick_replaces_on_external_change
      ⟨⟨[], false, false⟩, some "x"⟩ "x").2 rfl

/-- C5: `getTimeSpent` never mutates the project: after any number of calls,
at arbitrary clock readings, the project record (name, state, accumulated
time, iteration start and the onChange slot) is exactly the original and no
onChange notification has fired. -/
theorem C5_getTimeSpent_is_pure (p : Project) (times : Nat → Int) (k : Nat) :
    (iterGetTimeSpent p times k).1 = p ∧ (iterGetTimeSpent p times k).2 = 0 := by
  induction k generalizing times with
  | zero => exact ⟨rfl, rfl⟩
  | succ k ih =>
    have h := ih fun i => times (i + 1)
    simp [iterGetTimeSpent, Project.getTimeSpent, h.1, h.2]

/-- C6: starting a stopped project at time t1 and stopping it at time t2
leaves the iteration start at 0 and the state STOPPED, and increases the
accumulated time by exactly t2 - t1, hence by at least the elapsed
wall-clock time between the two calls. -/
theorem C6_start_stop_accumulates_elapsed (p : Project) (t1 t2 a : Int)
    (hst : p.state = some Project.State.STOPPED)
    (ha : p.timeSpentInPreviousIterations = some a) :
    (((p.start t1).1).stop t2).1.currentIterationStartTime = some 0 ∧
    (((p.start t1).1).stop t2).1.state = some Project.State.STOPPED ∧
    (((p.start t1).1).stop t2).1.timeSpentInPreviousIterations = some (a + (t2 - t1)) ∧
    t2 - t1 ≤ a + (t2 - t1) - a := by
  have hne : ¬ (some Project.State.STOPPED = some Project.State.RUNNING) := by decide
  have hne2 : ¬ (some Project.State.RUNNING = some Project.State.STOPPED) := by decide
  simp [Project.start, Project.stop, Project.getCurrentIterationTime, jsAdd, jsSub,
    hst, ha, hne, hne2]

/-- C6 (witness): the start/stop theorem applied at a concrete project and
concrete clock readings 10 and 25. -/
theorem C6_start_stop_witness :
    ((((Project.make "W").start 10).1).stop 25).1.currentIterationStartTime = some 0 ∧
    ((((Project.make "W").start 10).1).stop 25).1.state = some Project.State.STOPPED ∧
    ((((Project.make "W").start 10).1).stop 25).1.timeSpentInPreviousIterations =
      some (0 + (25 - 10)) ∧
    (25 : Int) - 10 ≤ 0 + (25 - 10) - 0 :=
  C6_start_stop_accumulates_elapsed (Project.make "W") 10 25 0 rfl rfl

/-- C7: resetting a running project whose onChange slot holds a callback
fires the callback exactly twice (once from the implicit stop, once from the
reset itself) and leaves the accumulated time at 0 and the state STOPPED. -/
theorem C7_reset_running_fires_twice (p : Project) (now : Int)
    (hrun : p.state = some Project.State.RUNNING) (hcb : p.onChange = true) :
    (p.reset now).2 = 2 ∧
    (p.reset now).1.timeSpentInPreviousIterations = some 0 ∧
    (p.reset now).1.state = some Project.State.STOPPED := by
  have hne2 : ¬ (some Project.State.RUNNING = some Project.State.STOPPED) := by decide
  simp [Project.reset, Project.stop, Project.callOnChange, hrun, hcb, hne2]

/-- C7 (witness): the reset theorem applied at a concrete running project
with an installed callback. -/
theorem C7_reset_running_witness :
    ((⟨"W", some Project.State.RUNNING, some 5, some 100, true⟩ : Project).reset 123).2 = 2 ∧
    ((⟨"W", some Project.State.RUNNING, some 5, some 100, true⟩ : Project).reset
        123).1.timeSpentInPreviousIterations = some 0 ∧
    ((⟨"W", some Project.State.RUNNING, some 5, some 100, true⟩ : Project).reset
        123).1.state = some Project.State.STOPPED :=
  C7_reset_running_fires_twice ⟨"W", some Project.State.RUNNING, some 5, some 100, true⟩
    123 rfl rfl

/-- C8: on a stopped project, `getTimeSpent` returns exactly the accumulated
time, whatever the wall clock reads. -/
theorem C8_getTimeSpent_stopped (p : Project) (now : Int)
    (hst : p.state = some Project.State.STOPPED) :
    (p.getTimeSpent now).1 = p.timeSpentInPreviousIterations := by
  have hne : ¬ (some Project.State.STOPPED = some Project.State.RUNNING) := by decide
  simp [Project.getTimeSpent, hst, hne]

/-- C8 (witness): the stopped-time theorem applied at a concrete project and
clock reading 999. -/
theorem C8_getTimeSpent_stopped_witness :
    ((Project.make "W").getTimeSpent 999).1 =
      (Project.make "W").timeSpentInPreviousIterations :=
  C8_getTimeSpent_stopped (Project.make "W") 999 rfl

/-- C9 (counterexample): deserializing the string "%" raises a `URIError`
inside `decodeURIComponent` during the very first attribute assignment, so
the exception escapes with no attribute set at all — contradicting the
claim that every input string has its parsed fields assigned. -/
theorem C9_uri_error_leaves_project_unchanged :
    ((Project.make "x").deserialize "%").1 = Project.make "x" ∧
    ((Project.make "x").deserialize "%").2.2 = false := by
  have h : percentDecodeChars (jsToStringChars (splitChar '&' ("%" : String).data)[0]?) =
      none := by
    rw [show jsToStringChars (splitChar '&' ("%" : String).data)[0]? = ['%'] from rfl]
    exact pdc_pct_one
  refine ⟨?_, ?_⟩ <;>
  · unfold Project.deserialize
    rw [h]

/-- C9 (amended): for every input string, deserializing performs zero
onChange invocations and leaves the onChange slot exactly as it was; when
the percent-decoding of the first ampersand-field succeeds, the call
completes normally and sets the four attributes from the split parts — the
name percent-decoded, the state tag verbatim (or the undefined value when
the part is missing), the two time fields through parseInt — and when the
percent-decoding raises a `URIError`, the call leaves every attribute
unchanged. -/
theorem C9_deserialize_is_silent (p : Project) (s : String) :
    (p.deserialize s).2.1 = 0 ∧
    (p.deserialize s).1.onChange = p.onChange ∧
    (∀ nameChars,
      percentDecodeChars (jsToStringChars (splitChar '&' s.data)[0]?) = some nameChars →
      (p.deserialize s).2.2 = true ∧
      (p.deserialize s).1.name = ⟨nameChars⟩ ∧
      (p.deserialize s).1.state = ((splitChar '&' s.data)[1]?).map (fun l => (⟨l⟩ : String)) ∧
      (p.deserialize s).1.timeSpentInPreviousIterations =
        jsParseInt (splitChar '&' s.data)[2]? ∧
      (p.deserialize s).1.currentIterationStartTime =
        jsParseInt (splitChar '&' s.data)[3]?) ∧
    (percentDecodeChars (jsToStringChars (splitChar '&' s.data)[0]?) = none →
      (p.deserialize s).2.2 = false ∧ (p.deserialize s).1 = p) := by
  rcases hd : percentDecodeChars (jsToStringChars (splitChar '&' s.data)[0]?) with _ | nc
  · refine ⟨?_, ?_, ?_, ?_⟩
    · unfold Project.deserialize
      rw [hd]
    · unfold Project.deserialize
      rw [hd]
    · intro nameChars hnc
      exact absurd hnc (by simp)
    · intro _
      refine ⟨?_, ?_⟩ <;>
      · unfold Project.deserialize
        rw [hd]
  · refine ⟨?_, ?_, ?_, ?_⟩
    · unfold Project.deserialize
      rw [hd]
    · unfold Project.deserialize
      rw [hd]
    · intro nameChars hnc
      rw [Option.some_inj] at hnc
      subst hnc
      refine ⟨?_, ?_, ?_, ?_, ?_⟩ <;>
      · unfold Project.deserialize
        rw [hd]
    · intro hnone
      exact absurd hnone (by simp)

/-- C9 (witness): the deserialization theorem applied at a concrete input
whose name field decodes (empty name, so the parsed fields are assigned and
the call completes) and at a concrete input that raises a `URIError` (the
project is untouched). -/
theorem C9_deserialize_witness :
    (((Project.make "W").deserialize "&stopped&1&2").2.2 = true ∧
      ((Project.make "W").deserialize "&stopped&1&2").1.name = (⟨[]⟩ : String) ∧
      ((Project.make "W").deserialize "&stopped&1&2").1.state =
        ((splitChar '&' ("&stopped&1&2" : String).data)[1]?).map (fun l => (⟨l⟩ : String)) ∧
      ((Project.make "W").deserialize "&stopped&1&2").1.timeSpentInPreviousIterations =
        jsParseInt (splitChar '&' ("&stopped&1&2" : String).data)[2]? ∧
      ((Project.make "W").deserialize "&stopped&1&2").1.currentIterationStartTime =
        jsParseInt (splitChar '&' ("&stopped&1&2" : String).data)[3]?) ∧
    (((Project.make "Y").deserialize "%").2.2 = false ∧
      ((Project.make "Y").deserialize "%").1 = Project.make "Y") :=
  ⟨(C9_deserialize_is_silent (Project.make "W") "&stopped&1&2").2.2.1 []
      (by rw [show jsToStringChars (splitChar '&' ("&stopped&1&2" : String).data)[0]? = []
            from rfl]
          exact pdc_nil),
   (C9_deserialize_is_silent (Project.make "Y") "%").2.2.2
      (by rw [show jsToStringChars (splitChar '&' ("%" : String).data)[0]? = ['%']
            from rfl]
          exact pdc_pct_one)⟩

/-- C10: the serialized text of a valid project contains no pipe character
and exactly three ampersands, so the ampersand split recovers exactly the
four field texts, and joining project encodings with pipes keeps the
boundaries unambiguous. -/
theorem C10_serialized_delimiters (p : Project) (hv : p.valid) :
    p.serialize.data.count '&' = 3 ∧
    '|' ∉ p.serialize.data ∧
    splitChar '&' p.serialize.data =
      [encodeChars p.name.data,
       jsJoinElemChars (p.state.map String.data),
       jsNumToChars p.timeSpentInPreviousIterations,
       jsNumToChars p.currentIterationStartTime] := by
  have hdata : p.serialize.data = p.serializeChars := rfl
  have hst := hv.1
  refine ⟨?_, ?_, ?_⟩
  · rw [hdata, serializeChars_eq]
    have c0 := List.count_eq_zero.mpr (amp_not_mem_encodeChars p.name.data)
    have c1 : List.count '&' (jsJoinElemChars (p.state.map String.data)) = 0 :=
      List.count_eq_zero.mpr fun h => (state_tag_ne_delim hst _ h).1 rfl
    have c2 := List.count_eq_zero.mpr
      (amp_not_mem_num p.timeSpentInPreviousIterations)
    have c3 := List.count_eq_zero.mpr (amp_not_mem_num p.currentIterationStartTime)
    simp [List.count_append, List.count_cons, c0, c1, c2, c3]
  · rw [hdata]
    exact pipe_not_mem_serializeChars p hst
  · rw [hdata]
    exact splitChar_serializeChars p hst

/-- C10 (witness): the delimiter theorem applied at a concrete valid project
whose name itself contains both delimiter characters. -/
theorem C10_serialized_delimiters_witness :
    (Project.serialize
        ⟨"a&b|c", some Project.State.RUNNING, some (-2), some 7, true⟩).data.count '&' = 3 ∧
    '|' ∉ (Project.serialize
        ⟨"a&b|c", some Project.State.RUNNING, some (-2), some 7, true⟩).data ∧
    splitChar '&' (Project.serialize
        ⟨"a&b|c", some Project.State.RUNNING, some (-2), some 7, true⟩).data =
      [encodeChars ("a&b|c" : String).data,
       jsJoinElemChars ((some Project.State.RUNNING).map String.data),
       jsNumToChars (some (-2)),
       jsNumToChars (some 7)] :=
  C10_serialized_delimiters
    ⟨"a&b|c", some Project.State.RUNNING, some (-2), some 7, true⟩ (by decide)

end Timer
